import Mathlib

/-!
Verification of the label-aware, formatting-preserving substitution core of
`employee_noc_system` (`src/employee_noc_system/noc_generator.py`).

Python strings are modelled as lists of characters (`Str`), and the two
regular expressions used by the source are modelled explicitly over the
ASCII range.  Paragraphs are modelled by the list of their run texts; the
flattened paragraph text is the concatenation of the run texts, as in the
data model of the specification.
-/

namespace NocGen

/-- Python strings, modelled as lists of characters. -/
abbrev Str := List Char

/-- Membership of the regex class `\w` (ASCII range): letters, digits, underscore. -/
def isWordChar (c : Char) : Bool := c.isAlphanum || c == '_'

/-- Membership of the regex class `\s` (ASCII range). -/
def isSpaceChar (c : Char) : Bool :=
  c == ' ' || c == '\t' || c == '\n' || c == '\r' || c == '\x0B' || c == '\x0C'

/-- Case-insensitive (re.IGNORECASE) match of the escaped literal `key` at offset `p` of `s`. -/
def ciMatchAt (s key : Str) (p : Nat) : Bool :=
  ((s.drop p).take key.length).map Char.toLower == key.map Char.toLower

/-- Whether the character at offset `i` of `s` is a word character (out of range: no). -/
def wordAt (s : Str) (i : Nat) : Bool :=
  match s[i]? with
  | some c => isWordChar c
  | none => false

/-- Regex `\b` (word boundary) at offset `i` of `s`. -/
def wordBoundary (s : Str) (i : Nat) : Bool :=
  (match i with
   | 0 => false
   | j+1 => wordAt s j) != wordAt s i

/-- Match of `\s*:` at offset `q` of `s`: the maximal whitespace run starting at `q`
must be followed by a colon (shorter whitespace runs cannot be followed by a colon,
so regex backtracking offers no other outcome).  Returns the offset past the colon. -/
def wsColonEnd (s : Str) (q : Nat) : Option Nat :=
  match s[q + ((s.drop q).takeWhile isSpaceChar).length]? with
  | some c =>
      if c == ':' then some (q + ((s.drop q).takeWhile isSpaceChar).length + 1) else none
  | none => none

/-- One attempt of the pattern `\bkey\b\s*:` (IGNORECASE) at offset `p`;
returns the match end (offset just past the colon). -/
def labelMatchAt (s key : Str) (p : Nat) : Option Nat :=
  if ciMatchAt s key p && wordBoundary s p && wordBoundary s (p + key.length)
  then wsColonEnd s (p + key.length)
  else none

/-- Leftmost-match search, trying offsets `p, p+1, ...` with `fuel` attempts. -/
def searchAux (s key : Str) : Nat → Nat → Option Nat
  | 0, _ => none
  | fuel+1, p =>
    match labelMatchAt s key p with
    | some e => some e
    | none => searchAux s key fuel (p+1)

/-- `_find_label_match`: end offset of the first match of `\bkey\b\s*:`
(IGNORECASE) in `s`, or `none`. -/
def find_label_match (s key : Str) : Option Nat := searchAux s key (s.length + 1) 0

/-- Python `str.find(c, start)` for a single-character needle, as an `Option`. -/
def findCharFrom (s : Str) (c : Char) (start : Nat) : Option Nat :=
  ((s.drop start).findIdx? (fun d => d == c)).map (fun j => start + j)

/-- Flattened text of a paragraph: concatenation of its run texts, in order. -/
def flatten (runs : List Str) : Str := runs.flatten

/-- Desired paragraph text built by `_replace_field_in_paragraph_runs` (lines 49-59):
text up to (and including) the colon, a space, the value, then the remainder from
the next newline on - or, when no newline follows, whatever already follows the
colon. -/
def desiredTextFor (fullText key value : Str) : Option Str :=
  (find_label_match fullText key).map (fun labelEnd =>
    fullText.take labelEnd ++ ' ' ::
      (value ++
        match findCharFrom fullText '\n' labelEnd with
        | none => fullText.drop labelEnd
        | some nl => fullText.drop nl))

/-- Slot-by-slot rewrite loop (lines 75-86): run `i` receives the slice of the
desired text at the cumulative offset of the previous original lengths, clipped
to the end of the desired text; a run whose slot starts past the end gets `""`. -/
def assignSlots : List Nat → Str → Nat → List Str
  | [], _, _ => []
  | l :: ls, d, pos =>
    (if d.length ≤ pos then []
     else (d.drop pos).take (min (pos + l) d.length - pos)) :: assignSlots ls d (pos + l)

/-- Append `extra` to the final element of a list of run texts (line 91). -/
def appendToLast (extra : Str) : List Str → List Str
  | [] => []
  | [r] => [r ++ extra]
  | r :: r2 :: rs => r :: appendToLast extra (r2 :: rs)

/-- Sum of the original run lengths (`total_orig_len`). -/
def totalLen (runs : List Str) : Nat := (runs.map List.length).sum

/-- Cumulative start offset of run `i` (`pos` at iteration `i` of the loop). -/
def slotStart (runs : List Str) (i : Nat) : Nat := ((runs.map List.length).take i).sum

/-- Original length of run `i` (0 when out of range). -/
def runLen (runs : List Str) (i : Nat) : Nat := ((runs.map List.length)[i]?).getD 0

/-- Redistribution of the desired text over the existing runs (lines 69-91). -/
def redistribute (runs : List Str) (d : Str) : List Str :=
  if totalLen runs < d.length
  then appendToLast (d.drop (totalLen runs)) (assignSlots (runs.map List.length) d 0)
  else assignSlots (runs.map List.length) d 0

/-- `_replace_field_in_paragraph_runs` acting on the run texts of a paragraph;
returns (whether a replacement was made, the new run texts).  A zero-run
paragraph receives the whole desired text through the `para.text` assignment
fallback, which materialises a single run. -/
def replace_field_in_paragraph_runs (runs : List Str) (key value : Str) : Bool × List Str :=
  match desiredTextFor (flatten runs) key value with
  | none => (false, runs)
  | some d =>
    match runs with
    | [] => (true, [d])
    | _ :: _ => (true, redistribute runs d)

/-- One attempt of the pattern `(key)\s*:\s*([^\n]*)` (IGNORECASE) at offset `p`;
returns the match end.  The first `\s*` must end on a colon; the second `\s*`
takes the maximal whitespace run (which may cross newlines), then `[^\n]*`
takes the maximal newline-free run. -/
def fallbackMatchAt (s key : Str) (p : Nat) : Option Nat :=
  if ciMatchAt s key p then
    match wsColonEnd s (p + key.length) with
    | none => none
    | some colonEnd =>
      some (colonEnd + ((s.drop colonEnd).takeWhile isSpaceChar).length
        + ((s.drop (colonEnd + ((s.drop colonEnd).takeWhile isSpaceChar).length)).takeWhile
            (fun c => !(c == '\n'))).length)
  else none

/-- Leftmost fallback-pattern match at offset `p` or later: (start, end). -/
def fallbackSearchAux (s key : Str) : Nat → Nat → Option (Nat × Nat)
  | 0, _ => none
  | fuel+1, p =>
    match fallbackMatchAt s key p with
    | some e => some (p, e)
    | none => fallbackSearchAux s key fuel (p+1)

/-- Scan loop of `re.sub`: emit the text before each match, then the replacement
`group(1) ++ ": " ++ value`, and continue right after the match end. -/
def subAux (s key value : Str) : Nat → Nat → Str
  | 0, pos => s.drop pos
  | fuel+1, pos =>
    match fallbackSearchAux s key (s.length + 1 - pos) pos with
    | none => s.drop pos
    | some (p, e) =>
      (s.drop pos).take (p - pos)
        ++ ((s.drop p).take key.length ++ ':' :: ' ' :: value)
        ++ subAux s key value fuel e

/-- `_replace_fields_in_text` for a single key (the source applies this per entry
of the replacement dict, and the fallback call sites pass a single-entry dict). -/
def replace_fields_in_text (s key value : Str) : Str := subAux s key value (s.length + 1) 0

/-- Membership of the filename class `[A-Za-z0-9._-]`. -/
def isSafeChar (c : Char) : Bool := c.isAlphanum || c == '.' || c == '_' || c == '-'

/-- Scan for `re.sub('[^A-Za-z0-9._-]+', '_', s)`: the flag records whether the
scan is inside a run of characters outside the class (a run that has already
emitted its single underscore). -/
def squashAux : Bool → Str → Str
  | _, [] => []
  | inRun, c :: cs =>
    if isSafeChar c then c :: squashAux false cs
    else if inRun then squashAux true cs else '_' :: squashAux true cs

/-- `re.sub('[^A-Za-z0-9._-]+', '_', s)` (line 132): each maximal run of
characters outside the class collapses to a single underscore. -/
def squashBadChars (s : Str) : Str := squashAux false s

/-- Python `str.strip()` (ASCII whitespace). -/
def pyStrip (s : Str) : Str :=
  ((s.dropWhile isSpaceChar).reverse.dropWhile isSpaceChar).reverse

/-- `safe_name` in `generate_noc` (line 132): sanitize the stripped full name,
falling back to `"unknown"` when the result is empty. -/
def safeName (fullName : Str) : Str :=
  if squashBadChars (pyStrip fullName) = [] then "unknown".data
  else squashBadChars (pyStrip fullName)

/-- Output file name `NOC_<safe_name>.docx` built in `generate_noc` (line 133). -/
def outputFileName (fullName : Str) : Str :=
  "NOC_".data ++ safeName fullName ++ ".docx".data

/-- Sanitization as worded by claim C4: every individual character outside the
class becomes one underscore each (the claim's reading, not the code's). -/
def perCharSanitize (s : Str) : Str := s.map (fun c => if isSafeChar c then c else '_')

/-! ## General lemmas about the redistribution loop -/

theorem assignSlots_length (ls : List Nat) (d : Str) (pos : Nat) :
    (assignSlots ls d pos).length = ls.length := by
  induction ls generalizing pos with
  | nil => rfl
  | cons l ls ih => simp [assignSlots, ih]

theorem assignSlots_get (ls : List Nat) (d : Str) (pos i : Nat) :
    (assignSlots ls d pos)[i]? = (ls[i]?).map (fun l =>
      if d.length ≤ pos + (ls.take i).sum then []
      else (d.drop (pos + (ls.take i).sum)).take
        (min (pos + (ls.take i).sum + l) d.length - (pos + (ls.take i).sum))) := by
  induction ls generalizing pos i with
  | nil => simp [assignSlots]
  | cons l ls ih =>
    cases i with
    | zero => simp [assignSlots]
    | succ i =>
      simp only [assignSlots, List.getElem?_cons_succ, List.take_succ_cons, List.sum_cons]
      rw [ih]
      simp [Nat.add_assoc]

theorem appendToLast_length (e : Str) (xs : List Str) :
    (appendToLast e xs).length = xs.length := by
  induction xs with
  | nil => rfl
  | cons r xs ih =>
    cases xs with
    | nil => rfl
    | cons r2 rs => simp only [appendToLast, List.length_cons] at ih ⊢; omega

theorem appendToLast_get (e : Str) (xs : List Str) (i : Nat) (h : i + 1 < xs.length) :
    (appendToLast e xs)[i]? = xs[i]? := by
  induction xs generalizing i with
  | nil => simp at h
  | cons r xs ih =>
    cases xs with
    | nil => simp at h
    | cons r2 rs =>
      cases i with
      | zero => simp [appendToLast]
      | succ i =>
        simp only [appendToLast, List.getElem?_cons_succ]
        exact ih i (by simpa using h)

theorem appendToLast_concat (e : Str) (ys : List Str) (a : Str) :
    appendToLast e (ys ++ [a]) = ys ++ [a ++ e] := by
  induction ys with
  | nil => rfl
  | cons y ys ih =>
    cases ys with
    | nil => rfl
    | cons y2 ys2 => simpa [appendToLast] using ih

theorem appendToLast_getLast (e : Str) (xs : List Str) (h : xs ≠ []) :
    (appendToLast e xs).getLast? = xs.getLast?.map (fun r => r ++ e) := by
  obtain ⟨ys, a, rfl⟩ := (List.eq_nil_or_concat xs).resolve_left h
  rw [List.concat_eq_append, appendToLast_concat]
  simp

theorem flatten_assignSlots (ls : List Nat) (d : Str) (pos : Nat) :
    flatten (assignSlots ls d pos) = (d.drop pos).take ls.sum := by
  induction ls generalizing pos with
  | nil => simp [flatten, assignSlots]
  | cons l ls ih =>
    simp only [assignSlots, flatten, List.flatten_cons, List.sum_cons]
    have ih2 : (assignSlots ls d (pos + l)).flatten = (d.drop (pos + l)).take ls.sum := ih (pos + l)
    rw [ih2, List.take_add]
    have hdd : (d.drop pos).drop l = d.drop (pos + l) := List.drop_drop l pos d
    rw [hdd]
    congr 1
    by_cases hp : d.length ≤ pos
    · rw [if_pos hp, List.drop_eq_nil_of_le hp]
      simp
    · rw [if_neg hp]
      rcases le_or_lt (pos + l) d.length with h1 | h1
      · rw [min_eq_left h1, Nat.add_sub_cancel_left]
      · rw [min_eq_right (le_of_lt h1)]
        have e1 : (d.drop pos).take (d.length - pos) = d.drop pos :=
          List.take_of_length_le (by rw [List.length_drop])
        have e2 : (d.drop pos).take l = d.drop pos :=
          List.take_of_length_le (by rw [List.length_drop]; omega)
        rw [e1, e2]

theorem flatten_appendToLast (e : Str) (xs : List Str) (h : xs ≠ []) :
    flatten (appendToLast e xs) = flatten xs ++ e := by
  obtain ⟨ys, a, rfl⟩ := (List.eq_nil_or_concat xs).resolve_left h
  rw [List.concat_eq_append, appendToLast_concat]
  simp [flatten]

theorem flatten_redistribute (runs : List Str) (d : Str) (h : runs ≠ []) :
    flatten (redistribute runs d) = d := by
  unfold redistribute
  by_cases hc : totalLen runs < d.length
  · rw [if_pos hc, flatten_appendToLast, flatten_assignSlots]
    · simp only [List.drop_zero]
      exact List.take_append_drop _ d
    · intro hnil
      have hlen := assignSlots_length (runs.map List.length) d 0
      rw [hnil] at hlen
      simp at hlen
      exact h (List.length_eq_zero.mp hlen.symm)
  · rw [if_neg hc, flatten_assignSlots]
    simp only [List.drop_zero]
    exact List.take_of_length_le (by unfold totalLen at hc; omega)

theorem rewrite_eq_redistribute (runs : List Str) (key value d : Str) (h : runs ≠ [])
    (hd : desiredTextFor (flatten runs) key value = some d) :
    replace_field_in_paragraph_runs runs key value = (true, redistribute runs d) := by
  cases runs with
  | nil => exact absurd rfl h
  | cons r rs => simp only [replace_field_in_paragraph_runs, hd]

theorem redistribute_length (runs : List Str) (d : Str) :
    (redistribute runs d).length = runs.length := by
  unfold redistribute
  split
  · rw [appendToLast_length, assignSlots_length, List.length_map]
  · rw [assignSlots_length, List.length_map]

theorem sum_take_getD_le (ls : List Nat) (i : Nat) :
    (ls.take i).sum + (ls[i]?).getD 0 ≤ ls.sum := by
  induction ls generalizing i with
  | nil => simp
  | cons l ls ih =>
    cases i with
    | zero => simp
    | succ i =>
      simp only [List.take_succ_cons, List.sum_cons, List.getElem?_cons_succ]
      have := ih i
      omega

theorem slotStart_add_runLen_le (runs : List Str) (i : Nat) :
    slotStart runs i + runLen runs i ≤ totalLen runs :=
  sum_take_getD_le (runs.map List.length) i

theorem slotStart_le (runs : List Str) (i : Nat) : slotStart runs i ≤ totalLen runs :=
  le_trans (Nat.le_add_right _ _) (slotStart_add_runLen_le runs i)

theorem map_length_get (runs : List Str) (i : Nat) (h : i < runs.length) :
    (runs.map List.length)[i]? = some (runLen runs i) := by
  have hlt : i < (runs.map List.length).length := by simpa using h
  rw [List.getElem?_eq_getElem hlt]
  unfold runLen
  rw [List.getElem?_eq_getElem hlt]
  rfl

theorem squashAux_all_bad (run l : Str) (h : ∀ a ∈ run, isSafeChar a = false) :
    squashAux true (run ++ l) = squashAux true l := by
  induction run with
  | nil => rfl
  | cons c cs ih =>
    rw [List.cons_append]
    have hc : isSafeChar c = false := h c (by simp)
    simp only [squashAux, hc, Bool.false_eq_true, if_false, if_true]
    exact ih (fun a ha => h a (by simp [ha]))

theorem squashAux_true_head_safe (l : Str) (h : l.head?.all isSafeChar = true) :
    squashAux true l = squashAux false l := by
  cases l with
  | nil => rfl
  | cons b bs =>
    have hb : isSafeChar b = true := by simpa using h
    simp [squashAux, hb]

theorem slot_piece (runs : List Str) (d : Str) (j : Nat) (hj : j < runs.length)
    (hfit : slotStart runs j + runLen runs j ≤ d.length) :
    (assignSlots (runs.map List.length) d 0)[j]?
      = some ((d.drop (slotStart runs j)).take (runLen runs j)) := by
  rw [assignSlots_get, map_length_get runs j hj]
  simp only [Nat.zero_add, Option.map_some']
  rw [show ((runs.map List.length).take j).sum = slotStart runs j from rfl]
  have hb := slotStart_add_runLen_le runs j
  by_cases hz : d.length ≤ slotStart runs j
  · have h0 : runLen runs j = 0 := by omega
    rw [if_pos hz, h0, List.take_zero]
  · rw [if_neg hz, min_eq_left (by omega), Nat.add_sub_cancel_left]

theorem assignSlots_ne_nil (runs : List Str) (d : Str) (h : runs ≠ []) :
    assignSlots (runs.map List.length) d 0 ≠ [] := by
  intro hnil
  have hlen := assignSlots_length (runs.map List.length) d 0
  rw [hnil] at hlen
  simp at hlen
  exact h (List.length_eq_zero.mp hlen.symm)

/-! ## Claim theorems -/

/-- C1 (code behaviour at the claim's concrete scenario): rewriting the
two-run paragraph `["Full Name", ": "]` for label "Full Name" with value
"Arjun Kumar" yields runs `["Full Name", ": Arjun Kumar "]` - the template's
remainder after the colon (a single space) survives at the end of the last
run, so the result differs from the claimed `[": Arjun Kumar"]` second run. -/
theorem rewrite_exact_label_concrete :
    replace_field_in_paragraph_runs ["Full Name".data, ": ".data] "Full Name".data
        "Arjun Kumar".data
      = (true, ["Full Name".data, ": Arjun Kumar ".data]) ∧
    ": Arjun Kumar ".data ≠ ": Arjun Kumar".data := by
  refine ⟨by decide, by decide⟩

/-- C2 (code behaviour at the claim's concrete scenario): rewriting
"Department: Engineering" for label "Department" with the empty value keeps
the old same-line remainder " Engineering" (no newline exists, so the code
keeps everything after the colon), producing flattened text
"Department:  Engineering" instead of the claimed "Department: ". -/
theorem rewrite_no_newline_keeps_old_value :
    replace_field_in_paragraph_runs ["Department: Engineering".data] "Department".data []
      = (true, ["Department:  Engineering".data]) ∧
    flatten (replace_field_in_paragraph_runs ["Department: Engineering".data]
        "Department".data []).2 ≠ "Department: ".data := by
  refine ⟨by decide, by decide⟩

/-- C3 counterexample: the whole-text fallback path has no word-boundary
requirement, so for label "Department" it does match inside "Subdepartment:"
and rewrites the line, contrary to the claim that such an occurrence is never
matched on either path. -/
theorem fallback_rewrites_embedded_label :
    replace_fields_in_text "Subdepartment: X".data "Department".data "Arjun".data
      = "Subdepartment: Arjun".data ∧
    replace_fields_in_text "Subdepartment: X".data "Department".data "Arjun".data
      ≠ "Subdepartment: X".data := by
  refine ⟨by decide, by decide⟩

/-- C3 amended: matching is case-insensitive, and whole-word on the
run-preserving path only: "JOB TITLE:" matches label "Job Title";
"Job Titles:" matches on neither path; "Subdepartment:" is not matched by the
run-preserving locator but is rewritten by the fallback path, which imposes no
word boundaries. -/
theorem label_matching_amended :
    find_label_match "JOB TITLE: x".data "Job Title".data = some 10 ∧
    replace_field_in_paragraph_runs ["Job Titles: x".data] "Job Title".data "Priya".data
      = (false, ["Job Titles: x".data]) ∧
    find_label_match "Subdepartment: X".data "Department".data = none ∧
    replace_fields_in_text "Job Titles: x".data "Job Title".data "Priya".data
      = "Job Titles: x".data ∧
    replace_fields_in_text "Subdepartment: X".data "Department".data "Priya".data
      = "Subdepartment: Priya".data := by
  refine ⟨by decide, by decide, by decide, by decide, by decide⟩

/-- C4 counterexample: the sanitizer collapses a whole run of characters
outside `[A-Za-z0-9._-]` to a single underscore, so for full name
"Arjun//Kumar" the produced filename differs from the per-character
sanitization the claim describes. -/
theorem sanitize_not_per_char :
    outputFileName "Arjun//Kumar".data = "NOC_Arjun_Kumar.docx".data ∧
    "NOC_".data ++ perCharSanitize (pyStrip "Arjun//Kumar".data) ++ ".docx".data
      = "NOC_Arjun__Kumar.docx".data ∧
    outputFileName "Arjun//Kumar".data
      ≠ "NOC_".data ++ perCharSanitize (pyStrip "Arjun//Kumar".data) ++ ".docx".data := by
  refine ⟨by decide, by decide, by decide⟩

/-- C4 amended: sanitization replaces every maximal run of characters outside
`[A-Za-z0-9._-]` in the stripped full name with a single underscore; an empty
result falls back to "unknown"; "Arjun/Kumar" yields NOC_Arjun_Kumar.docx. -/
theorem sanitize_collapses_runs (run rest name : Str)
    (hne : run ≠ [])
    (hrun : run.all (fun a => !isSafeChar a) = true)
    (hrest : rest.head?.all isSafeChar = true)
    (hname : squashBadChars (pyStrip name) = []) :
    squashBadChars (run ++ rest) = '_' :: squashBadChars rest ∧
    outputFileName name = "NOC_unknown.docx".data ∧
    outputFileName "Arjun/Kumar".data = "NOC_Arjun_Kumar.docx".data := by
  refine ⟨?_, ?_, by decide⟩
  · cases run with
    | nil => exact absurd rfl hne
    | cons c cs =>
      have hc : isSafeChar c = false := by
        have := (List.all_eq_true.mp hrun) c (by simp)
        simpa using this
      have hcs : ∀ a ∈ cs, isSafeChar a = false := by
        intro a ha
        have := (List.all_eq_true.mp hrun) a (by simp [ha])
        simpa using this
      show squashAux false ((c :: cs) ++ rest) = '_' :: squashBadChars rest
      rw [List.cons_append]
      simp only [squashAux, hc, Bool.false_eq_true, if_false]
      rw [squashAux_all_bad cs rest hcs, squashAux_true_head_safe rest hrest]
      rfl
  · unfold outputFileName safeName
    rw [if_pos hname]
    decide

/-- C4 amended, witness: a run "//" followed by "Kumar" collapses to one
underscore; a whitespace-only name falls back to "unknown". -/
theorem sanitize_collapses_runs_witness :
    squashBadChars ("//".data ++ "Kumar".data) = '_' :: squashBadChars "Kumar".data ∧
    outputFileName "  ".data = "NOC_unknown.docx".data ∧
    outputFileName "Arjun/Kumar".data = "NOC_Arjun_Kumar.docx".data :=
  sanitize_collapses_runs "//".data "Kumar".data "  ".data (by decide) (by decide)
    (by decide) (by decide)

/-- C5: when the desired text is longer than the sum of the original run
lengths, each run except the last receives exactly its original-length slice
of the desired text, and the last run receives its slice followed by the
surplus beyond the original total length, verbatim. -/
theorem surplus_goes_to_last_run (runs : List Str) (key value d : Str) (i : Nat)
    (h : runs ≠ [])
    (hd : desiredTextFor (flatten runs) key value = some d)
    (hlong : totalLen runs < d.length)
    (hi : i + 1 < runs.length) :
    (replace_field_in_paragraph_runs runs key value).2[i]?
      = some ((d.drop (slotStart runs i)).take (runLen runs i)) ∧
    ((d.drop (slotStart runs i)).take (runLen runs i)).length = runLen runs i ∧
    (replace_field_in_paragraph_runs runs key value).2.getLast?
      = some ((d.drop (slotStart runs (runs.length - 1))).take
            (runLen runs (runs.length - 1))
          ++ d.drop (totalLen runs)) := by
  rw [rewrite_eq_redistribute runs key value d h hd]
  have hred : redistribute runs d
      = appendToLast (d.drop (totalLen runs)) (assignSlots (runs.map List.length) d 0) := by
    unfold redistribute
    rw [if_pos hlong]
  refine ⟨?_, ?_, ?_⟩
  · show (redistribute runs d)[i]? = _
    rw [hred, appendToLast_get _ _ i (by rw [assignSlots_length, List.length_map]; omega)]
    exact slot_piece runs d i (by omega)
      (le_trans (slotStart_add_runLen_le runs i) (le_of_lt hlong))
  · have h1 := slotStart_add_runLen_le runs i
    rw [List.length_take, List.length_drop]
    exact min_eq_left (by omega)
  · show (redistribute runs d).getLast? = _
    rw [hred, appendToLast_getLast _ _ (assignSlots_ne_nil runs d h),
      List.getLast?_eq_getElem?, assignSlots_length, List.length_map,
      slot_piece runs d (runs.length - 1) (by omega)
        (le_trans (slotStart_add_runLen_le runs (runs.length - 1)) (le_of_lt hlong))]
    rfl

/-- C5 witness: the two-run template paragraph with a long value. -/
theorem surplus_goes_to_last_run_witness :
    (replace_field_in_paragraph_runs ["Full Name".data, ": ".data] "Full Name".data
        "Arjun Kumar".data).2[0]?
      = some ((("Full Name: Arjun Kumar ".data).drop
          (slotStart ["Full Name".data, ": ".data] 0)).take
          (runLen ["Full Name".data, ": ".data] 0)) ∧
    ((("Full Name: Arjun Kumar ".data).drop (slotStart ["Full Name".data, ": ".data] 0)).take
        (runLen ["Full Name".data, ": ".data] 0)).length
      = runLen ["Full Name".data, ": ".data] 0 ∧
    (replace_field_in_paragraph_runs ["Full Name".data, ": ".data] "Full Name".data
        "Arjun Kumar".data).2.getLast?
      = some ((("Full Name: Arjun Kumar ".data).drop
            (slotStart ["Full Name".data, ": ".data] (["Full Name".data, ": ".data].length - 1))).take
            (runLen ["Full Name".data, ": ".data] (["Full Name".data, ": ".data].length - 1))
          ++ ("Full Name: Arjun Kumar ".data).drop (totalLen ["Full Name".data, ": ".data])) :=
  surplus_goes_to_last_run ["Full Name".data, ": ".data] "Full Name".data "Arjun Kumar".data
    "Full Name: Arjun Kumar ".data 0 (by decide) (by decide) (by decide) (by decide)

/-- C6: whenever the run-preserving rewrite succeeds on a paragraph with at
least one run, it reports true and the number of runs is unchanged; a run
whose slot starts at or beyond the end of the desired text has its text set
to the empty string, but stays in the run sequence. -/
theorem run_count_invariant (runs : List Str) (key value d : Str) (i : Nat)
    (h : runs ≠ [])
    (hd : desiredTextFor (flatten runs) key value = some d) :
    (replace_field_in_paragraph_runs runs key value).1 = true ∧
    (replace_field_in_paragraph_runs runs key value).2.length = runs.length ∧
    (i < runs.length → d.length ≤ slotStart runs i →
      (replace_field_in_paragraph_runs runs key value).2[i]? = some []) := by
  rw [rewrite_eq_redistribute runs key value d h hd]
  refine ⟨rfl, redistribute_length runs d, ?_⟩
  intro hi hbeyond
  show (redistribute runs d)[i]? = some []
  have hsle := slotStart_le runs i
  unfold redistribute
  rw [if_neg (by omega)]
  rw [assignSlots_get, map_length_get runs i hi]
  simp only [Nat.zero_add, Option.map_some']
  rw [show ((runs.map List.length).take i).sum = slotStart runs i from rfl]
  rw [if_pos hbeyond]

/-- C6 witness: shrinking rewrite that empties the second run while keeping
the run count at two. -/
theorem run_count_invariant_witness :
    (replace_field_in_paragraph_runs ["Full Name: OLDVALUE\n".data, "X".data]
        "Full Name".data []).1 = true ∧
    (replace_field_in_paragraph_runs ["Full Name: OLDVALUE\n".data, "X".data]
        "Full Name".data []).2.length = ["Full Name: OLDVALUE\n".data, "X".data].length ∧
    (1 < ["Full Name: OLDVALUE\n".data, "X".data].length →
      ("Full Name: \nX".data).length ≤ slotStart ["Full Name: OLDVALUE\n".data, "X".data] 1 →
      (replace_field_in_paragraph_runs ["Full Name: OLDVALUE\n".data, "X".data]
          "Full Name".data []).2[1]? = some []) :=
  run_count_invariant ["Full Name: OLDVALUE\n".data, "X".data] "Full Name".data []
    "Full Name: \nX".data 1 (by decide) (by decide)

/-- C8: when the desired text is exactly as long as the sum of the original
run lengths, redistribution gives every run a new text of exactly its
original length. -/
theorem equal_length_preserves_run_lengths (runs : List Str) (d : Str) (i : Nat)
    (heq : d.length = totalLen runs) :
    ((redistribute runs d)[i]?).map List.length = (runs[i]?).map List.length := by
  unfold redistribute
  rw [if_neg (by omega)]
  by_cases hi : i < runs.length
  · rw [slot_piece runs d i hi (by have := slotStart_add_runLen_le runs i; omega)]
    have hr : (runs[i]?).map List.length = some (runLen runs i) := by
      rw [← List.getElem?_map]
      exact map_length_get runs i hi
    rw [hr, Option.map_some']
    have hb := slotStart_add_runLen_le runs i
    rw [List.length_take, List.length_drop]
    congr 1
    exact min_eq_left (by omega)
  · rw [List.getElem?_eq_none (by rw [assignSlots_length, List.length_map]; omega),
      List.getElem?_eq_none (by omega)]

/-- C8 witness: two runs of lengths 3 and 2, desired text of length 5. -/
theorem equal_length_preserves_run_lengths_witness :
    ((redistribute ["abc".data, "de".data] "XYZVW".data)[1]?).map List.length
      = (["abc".data, "de".data][1]?).map List.length :=
  equal_length_preserves_run_lengths ["abc".data, "de".data] "XYZVW".data 1 (by decide)

/-- C7: rewriting a label leaves everything from the first newline after the
label untouched: when the locator matches with end offset `lEnd` and the next
newline is at offset `m`, the new flattened text is the prefix up to the
colon, a space, the value, then the old text from offset `m` on, verbatim -
so a following "Job Title:" line is unchanged. -/
theorem rewrite_preserves_text_from_newline (runs : List Str) (v : Str) (lEnd m : Nat)
    (h : runs ≠ [])
    (hm : find_label_match (flatten runs) "Full Name".data = some lEnd)
    (hn : findCharFrom (flatten runs) '\n' lEnd = some m) :
    (replace_field_in_paragraph_runs runs "Full Name".data v).1 = true ∧
    flatten (replace_field_in_paragraph_runs runs "Full Name".data v).2
      = (flatten runs).take lEnd ++ ' ' :: (v ++ (flatten runs).drop m) := by
  have hd : desiredTextFor (flatten runs) "Full Name".data v
      = some ((flatten runs).take lEnd ++ ' ' :: (v ++ (flatten runs).drop m)) := by
    unfold desiredTextFor
    rw [hm]
    simp [hn]
  rw [rewrite_eq_redistribute runs "Full Name".data v _ h hd]
  exact ⟨rfl, flatten_redistribute runs _ h⟩

/-- C7 witness: a paragraph holding "Full Name:" and "Job Title:" on separate
lines; the rewrite keeps the "Job Title:" line verbatim. -/
theorem rewrite_preserves_text_from_newline_witness :
    (replace_field_in_paragraph_runs ["Full Name:\nJob Title:\n".data] "Full Name".data
        "Arjun".data).1 = true ∧
    flatten (replace_field_in_paragraph_runs ["Full Name:\nJob Title:\n".data]
        "Full Name".data "Arjun".data).2
      = (flatten ["Full Name:\nJob Title:\n".data]).take 10 ++ ' ' ::
        ("Arjun".data ++ (flatten ["Full Name:\nJob Title:\n".data]).drop 10) :=
  rewrite_preserves_text_from_newline ["Full Name:\nJob Title:\n".data] "Arjun".data 10 10
    (by decide) (by decide) (by decide)

/-- C9: when the whole-word label pattern does not match the flattened text,
the run-preserving rewriter reports false and returns the run texts exactly
as they were. -/
theorem no_match_leaves_runs_unchanged (runs : List Str) (key value : Str)
    (h : find_label_match (flatten runs) key = none) :
    replace_field_in_paragraph_runs runs key value = (false, runs) := by
  simp [replace_field_in_paragraph_runs, desiredTextFor, h]

/-- C9 witness: a paragraph without the label is returned unchanged. -/
theorem no_match_leaves_runs_unchanged_witness :
    replace_field_in_paragraph_runs ["Hello".data] "Full Name".data "X".data
      = (false, ["Hello".data]) :=
  no_match_leaves_runs_unchanged ["Hello".data] "Full Name".data "X".data (by decide)

/-- C10 (code behaviour at the failing input): in the whole-text fallback the
`\s*` after the colon also matches newlines, so for text "Department:\nX" the
match swallows the line break and the following line, producing
"Department: v" instead of the claimed "Department: v\nX". -/
theorem fallback_swallows_newline :
    replace_fields_in_text "Department:\nX".data "Department".data "v".data
      = "Department: v".data ∧
    replace_fields_in_text "Department:\nX".data "Department".data "v".data
      ≠ "Department: v\nX".data := by
  refine ⟨by decide, by decide⟩

end NocGen
